import Mathlib

/-!
Verification development for the `atixlabs/chain-libs` btree store.

The development shallowly embeds the copy-on-write B+-tree index
(`src/btree`): the node codec, the insertion descent, the MVCC version
manager, the page borrow checker and the append-only flat file.  Keys and
values are embedded as `Nat` (the keys of the store are totally ordered
fixed-width tokens, values are `u64` blob offsets), `PageId` as `Nat`.
Fallible operations return `Option` or `Except`; a Rust panic is
embedded as `none`.
-/

namespace ChainLibsBtree

/-! ## Node model

`node/leaf_node.rs` and `node/internal_node.rs` are not part of the
sources; only their unit tests (`node/mod.rs`) are.  The leaf and internal
node operations below are therefore modelled from the specification
(section 4.3), with the split point fixed by the unit tests
`leaf_insert_with_split` and `internal_insert_with_split` in
`node/mod.rs`, which are part of the sources.
-/

/-- A leaf node: the association list of `(key, value)` entries, kept
sorted by strictly ascending key (spec section 3, leaf node body). -/
structure LeafNode where
  entries : List (Nat × Nat)
deriving DecidableEq, Repr

/-- Result of `LeafNode::insert` (spec section 4.3). -/
inductive LeafInsertStatus where
  | Ok (leaf : LeafNode)
  | DuplicatedKey
  | Split (midKey : Nat) (left : LeafNode) (right : LeafNode)
deriving DecidableEq, Repr

/-- Insert `(k, v)` at its sorted slot in an entry list. -/
def insertSorted (k v : Nat) : List (Nat × Nat) → List (Nat × Nat)
  | [] => [(k, v)]
  | (k1, v1) :: rest =>
    if k < k1 then (k, v) :: (k1, v1) :: rest
    else (k1, v1) :: insertSorted k v rest

/-- Keys of a leaf node, in order. -/
def LeafNode.keys (leaf : LeafNode) : List Nat :=
  leaf.entries.map Prod.fst

/-- Modelled from the spec: `LeafNode::insert` (section 4.3); the file
`node/leaf_node.rs` is not in the sources.  If the key is present the
status is `DuplicatedKey` and nothing changes; with space available the
entry goes to its sorted slot; a full leaf splits: the `cap + 1` entries
are partitioned in key order, the new entry landing in whichever half it
belongs, and `mid_key` is the first key of the right sibling.  The split
point is fixed by the unit tests `leaf_insert_with_split` in
`node/mod.rs` (sources): with capacity 2 the left keeps 1 entry, i.e. the
left keeps `(cap + 1) / 2` entries rounding down. -/
def LeafNode.insert (cap : Nat) (leaf : LeafNode) (k v : Nat) : LeafInsertStatus :=
  if leaf.keys.contains k then .DuplicatedKey
  else if leaf.entries.length < cap then .Ok ⟨insertSorted k v leaf.entries⟩
  else
    let merged := insertSorted k v leaf.entries
    let m := (cap + 1) / 2
    let right := merged.drop m
    .Split ((right.map Prod.fst).headD 0) ⟨merged.take m⟩ ⟨right⟩

example :
    LeafNode.insert 2 ⟨[(1, 1), (2, 2)]⟩ 3 3 =
      .Split 2 ⟨[(1, 1)]⟩ ⟨[(2, 2), (3, 3)]⟩ := by decide

example :
    LeafNode.insert 2 ⟨[(2, 2), (3, 3)]⟩ 1 1 =
      .Split 2 ⟨[(1, 1)]⟩ ⟨[(2, 2), (3, 3)]⟩ := by decide

example :
    LeafNode.insert 2 ⟨[(1, 1), (3, 3)]⟩ 2 2 =
      .Split 2 ⟨[(1, 1)]⟩ ⟨[(2, 2), (3, 3)]⟩ := by decide

example : LeafNode.insert 2 ⟨[(1, 1), (2, 2)]⟩ 2 9 = .DuplicatedKey := by decide

example : LeafNode.insert 2 ⟨[(1, 1)]⟩ 3 3 = .Ok ⟨[(1, 1), (3, 3)]⟩ := by decide

/-- An internal node: strictly ascending keys and `keys.length + 1`
children `PageId`s (spec section 3, internal node body). -/
structure InternalNode where
  keys : List Nat
  children : List Nat
deriving DecidableEq, Repr

/-- Result of `InternalNode::insert` (spec section 4.3). -/
inductive InternalInsertStatus where
  | Ok (node : InternalNode)
  | Split (midKey : Nat) (left : InternalNode) (right : InternalNode)
deriving DecidableEq, Repr

/-- Rust `slice::binary_search` on a strictly ascending key slice:
`Ok(pos)` with `keys[pos] = k` when the key is present, otherwise
`Err(pos)` with `pos` the insertion point.  On a strictly sorted list
both positions equal the number of keys smaller than `k`. -/
def binary_search (keys : List Nat) (k : Nat) : Nat ⊕ Nat :=
  if keys.contains k then .inl (keys.takeWhile (fun x => x < k)).length
  else .inr (keys.takeWhile (fun x => x < k)).length

/-- The child selected at an internal node during the insertion descent,
from `InsertBacktrack::search_for` (`insertion.rs:54-67`): the upper
pivot is `pos + 1` on `Ok(pos)` and `pos` on `Err(pos)`, filtered by
being in range of the children array; out of range falls back to the
last child (`checked_sub(1).unwrap()` panics on an empty children array,
embedded as `none`). -/
def descentChild (node : InternalNode) (k : Nat) : Option Nat :=
  let upperPivot :=
    match binary_search node.keys k with
    | .inl pos => pos + 1
    | .inr pos => pos
  if upperPivot < node.children.length then
    node.children.get? upperPivot
  else
    match node.children.length with
    | 0 => none
    | n + 1 => node.children.get? n

example : descentChild ⟨[5], [10, 20]⟩ 3 = some 10 := by decide
example : descentChild ⟨[5], [10, 20]⟩ 5 = some 20 := by decide
example : descentChild ⟨[5], [10, 20]⟩ 7 = some 20 := by decide
example : descentChild ⟨[5], [10]⟩ 5 = some 10 := by decide

/-- Insert key `k` at its sorted slot and the page id `c` immediately
after it, i.e. at the child slot to the right of `k` (spec section 4.3,
`InternalNode::insert` placement rule). -/
def internalEntriesWith (keys children : List Nat) (k c : Nat) :
    List Nat × List Nat :=
  let pos := (keys.takeWhile (fun x => x < k)).length
  (keys.take pos ++ k :: keys.drop pos,
   children.take (pos + 1) ++ c :: children.drop (pos + 1))

/-- Modelled from the spec: `InternalNode::insert` (section 4.3); the
file `node/internal_node.rs` is not in the sources.  `(k, right_child)`
goes to its sorted slot; on overflow the node splits and the midpoint key
is promoted: with the `cap + 1` keys merged in order, the left keeps keys
`[0..m)`, the promoted key is key `m`, the right keeps keys `[m+1..]`,
and the children are split at `m + 1`.  The split point `m = (cap+1)/2`
(rounding down) is fixed by the unit tests `internal_insert_with_split`
in `node/mod.rs` (sources). -/
def InternalNode.insert (cap : Nat) (node : InternalNode) (k c : Nat) :
    InternalInsertStatus :=
  if node.keys.length < cap then
    let (ks, cs) := internalEntriesWith node.keys node.children k c
    .Ok ⟨ks, cs⟩
  else
    let (ks, cs) := internalEntriesWith node.keys node.children k c
    let m := (cap + 1) / 2
    .Split ((ks.drop m).headD 0) ⟨ks.take m, cs.take (m + 1)⟩
      ⟨(ks.drop m).tail, cs.drop (m + 1)⟩

/-- Rust `InternalNode::insert_first` on a fresh internal node (used when a
root split creates a new internal root). -/
def InternalNode.insert_first (k left right : Nat) : InternalNode :=
  ⟨[k], [left, right]⟩

example :
    InternalNode.insert 2 ⟨[1, 2], [0, 1, 2]⟩ 3 3 =
      .Split 2 ⟨[1], [0, 1]⟩ ⟨[3], [2, 3]⟩ := by decide

example :
    InternalNode.insert 2 ⟨[2, 3], [0, 2, 3]⟩ 1 1 =
      .Split 2 ⟨[1], [0, 1]⟩ ⟨[3], [2, 3]⟩ := by decide

example :
    InternalNode.insert 2 ⟨[1, 3], [0, 1, 3]⟩ 2 2 =
      .Split 2 ⟨[1], [0, 1]⟩ ⟨[3], [2, 3]⟩ := by decide

/-! ## Page store and tree

Pages hold either a leaf or an internal node (spec section 3, tag 0/1).
The page store is an association list `PageId → node`; updates cons the
new binding at the front, so `List.lookup` sees the latest write. -/

/-- A decoded page: the tagged node variant (spec section 3). -/
inductive NodeM where
  | leaf (node : LeafNode)
  | internal (node : InternalNode)
deriving DecidableEq, Repr

/-- The paged store contents, as an association list from `PageId`. -/
abbrev PageStore := List (Nat × NodeM)

/-- Root-to-leaf descent for `key`, as performed by
`InsertBacktrack::search_for` (`insertion.rs:45-95`): starting from the
root, follow `descentChild` at every internal node, recording the
visited internal nodes, until a leaf is reached.  `fuel` bounds the path
length; exhausted fuel, a dangling page id or an empty children array
(a panic in the source) give `none`. -/
def search_for (s : PageStore) (k : Nat) : Nat → Nat →
    Option (List (Nat × InternalNode) × Nat × LeafNode)
  | 0, _ => none
  | fuel + 1, current =>
    match s.lookup current with
    | some (.leaf l) => some ([], current, l)
    | some (.internal node) =>
      match descentChild node k with
      | some child =>
        match search_for s k fuel child with
        | some (path, leafId, leaf) => some ((current, node) :: path, leafId, leaf)
        | none => none
      | none => none
    | none => none

/-- Modelled from the spec: `BTree::lookup` (`btreeindex/mod.rs` is not
in the sources).  Per section 4.3 the descent policy is the one shared
with insertion (`descentChild`); at the leaf, the value of the key is looked
up among the entries. -/
def treeLookup (s : PageStore) (fuel root k : Nat) : Option Nat :=
  match search_for s k fuel root with
  | some (_, _, leaf) => leaf.entries.lookup k
  | none => none

/-- The id of the first node on a descent path, or the leaf id when the
path has no internal frame. -/
def headIdOf (path : List (Nat × InternalNode)) (leafId : Nat) : Nat :=
  match path with
  | [] => leafId
  | (id2, _) :: _ => id2

/-- The descent path is linked: each recorded internal node selects, via
`descentChild`, the id of the next node on the path (the leaf id for the
last one). -/
def pathLinked (k leafId : Nat) : List (Nat × InternalNode) → Prop
  | [] => True
  | (_, node) :: rest =>
    descentChild node k = some (headIdOf rest leafId) ∧ pathLinked k leafId rest

/-! ## Copy-on-write insertion

The writer state below follows the insertion pipeline of
`insertion.rs::insert` together with spec section 4.6: the descent
records the path, the leaf gets the new entry, splits propagate upward,
and every mutated page is written at a fresh page id (shadowing) with
the child entry of the parent renamed accordingly.  The split-propagation
loop itself (`insert_in_internals`) is `unimplemented!()` in the
sources; it is modelled from the spec (section 4.6, step 3) and the
commented-out body at `insertion.rs:299-331`. -/

/-- Working state of an insert transaction over the tree: the working
page store (staged pages consed over the published ones), the current
root, the allocation counter and the collected old (shadowed) page ids.
Page allocation is modelled as `nextId` increments (spec section 4.4,
with an empty free list). -/
structure TreeTx where
  store : PageStore
  root : Nat
  nextId : Nat
  oldIds : List Nat
deriving DecidableEq, Repr

/-- Rename child `oldId` to `newId` in an internal node
(`InsertBacktrack::rename_parent`, `insertion.rs:188-204`; children of a
well-formed node are pairwise distinct, so renaming every occurrence
coincides with updating the first one found by `linear_search`). -/
def renameChild (node : InternalNode) (oldId newId : Nat) : InternalNode :=
  ⟨node.keys, node.children.map fun c => if c = oldId then newId else c⟩

/-- What the layer below reports while propagating upward: either the
child was shadowed (renamed `oldId → newId`), or it was additionally
split, with `midKey` and the new right sibling to insert in the parent. -/
inductive UpStep where
  | rename (oldId newId : Nat)
  | renameSplit (oldId newId midKey rightId : Nat)
deriving DecidableEq, Repr

/-- Write `node` at a fresh page id, recording `oldId` as shadowed
(`InsertTransactionBuilder::add_shadow` plus allocation); returns the
fresh id. -/
def shadowWrite (tx : TreeTx) (oldId : Nat) (node : NodeM) : TreeTx × Nat :=
  (⟨(tx.nextId, node) :: tx.store, tx.root, tx.nextId + 1, tx.oldIds ++ [oldId]⟩,
   tx.nextId)

/-- Write `node` at a fresh page id without shadowing anything
(`InsertTransactionBuilder::add_new_node`); returns the fresh id. -/
def newWrite (tx : TreeTx) (node : NodeM) : TreeTx × Nat :=
  (⟨(tx.nextId, node) :: tx.store, tx.root, tx.nextId + 1, tx.oldIds⟩, tx.nextId)

/-- Propagate the leaf update along the recorded path, from the deepest
frame outward (spec section 4.6, steps 2-3): each parent first renames
the shadowed child, then, if a split is pending, inserts
`(midKey, rightId)`, possibly splitting in turn; when the path is
exhausted with a split still pending, a fresh internal root is created
with the two children and the separator. -/
def propagateUp (cap : Nat) : List (Nat × InternalNode) → TreeTx → UpStep → TreeTx
  | [], tx, .rename _ newId =>
    { tx with root := newId }
  | [], tx, .renameSplit _ newId midKey rightId =>
    let (tx1, rootId) :=
      newWrite tx (.internal (InternalNode.insert_first midKey newId rightId))
    { tx1 with root := rootId }
  | (frameId, node) :: rest, tx, .rename oldId newId =>
    let node1 := renameChild node oldId newId
    let (tx1, newFrameId) := shadowWrite tx frameId (.internal node1)
    propagateUp cap rest tx1 (.rename frameId newFrameId)
  | (frameId, node) :: rest, tx, .renameSplit oldId newId midKey rightId =>
    let node1 := renameChild node oldId newId
    match InternalNode.insert cap node1 midKey rightId with
    | .Ok node2 =>
      let (tx1, newFrameId) := shadowWrite tx frameId (.internal node2)
      propagateUp cap rest tx1 (.rename frameId newFrameId)
    | .Split mid2 leftNode rightNode =>
      let (tx1, rightId2) := newWrite tx (.internal rightNode)
      let (tx2, newFrameId) := shadowWrite tx1 frameId (.internal leftNode)
      propagateUp cap rest tx2 (.renameSplit frameId newFrameId mid2 rightId2)

/-- One key insertion inside a write transaction (`insertion.rs::insert`
with the leaf step of `insert_in_leaf`, `insertion.rs:271-291`): descend
to the leaf, apply `LeafNode::insert`, fail the transaction on
`DuplicatedKey`, otherwise shadow the leaf (and its split sibling) and
propagate along the path.  The path frames are processed deepest-first,
so the recorded path is reversed before `propagateUp`. -/
def treeInsertTx (cap fuel : Nat) (tx : TreeTx) (k v : Nat) :
    Except String TreeTx :=
  match search_for tx.store k fuel tx.root with
  | none => .error "corrupted tree"
  | some (path, leafId, leaf) =>
    match LeafNode.insert cap leaf k v with
    | .DuplicatedKey => .error "duplicated key"
    | .Ok newLeaf =>
      let (tx1, newLeafId) := shadowWrite tx leafId (.leaf newLeaf)
      .ok (propagateUp cap path.reverse tx1 (.rename leafId newLeafId))
    | .Split midKey leftLeaf rightLeaf =>
      let (tx1, rightId) := newWrite tx (.leaf rightLeaf)
      let (tx2, newLeafId) := shadowWrite tx1 leafId (.leaf leftLeaf)
      .ok (propagateUp cap path.reverse tx2
        (.renameSplit leafId newLeafId midKey rightId))

/-- Run a batch of insertions against one transaction
(`BTree::insert_many` body over a single `InsertTransactionBuilder`,
spec section 4.6 batch inserts): the first error aborts the whole
batch. -/
def treeInsertManyTx (cap fuel : Nat) : TreeTx → List (Nat × Nat) →
    Except String TreeTx
  | tx, [] => .ok tx
  | tx, (k, v) :: rest =>
    match treeInsertTx cap fuel tx k v with
    | .ok tx1 => treeInsertManyTx cap fuel tx1 rest
    | .error e => .error e

/-! ## Versions and the transaction manager (`version.rs`) -/

/-- Rust `WriteTransaction` (`version.rs:26-30`): the delta carried by a
published version. -/
structure WriteTransactionM where
  new_root : Nat
  shadowed_pages : List Nat
  next_page_id : Nat
deriving DecidableEq, Repr

/-- Rust `Version` (`version.rs:20-23`). -/
structure VersionM where
  root : Nat
  transaction : WriteTransactionM
deriving DecidableEq, Repr

/-- The page manager state (spec section 4.4; `page_manager.rs` is not
in the sources, its fields are fixed by `Metadata` in spec section 3). -/
structure PageManagerM where
  next_page : Nat
  free_list : List Nat
deriving DecidableEq, Repr

/-- Modelled from the spec: `PageManager::remove_page` / `release(id)`
(section 4.4, `page_manager.rs` not in the sources): pushes the id onto
the free list. -/
def PageManagerM.remove_page (pm : PageManagerM) (id : Nat) : PageManagerM :=
  ⟨pm.next_page, pm.free_list ++ [id]⟩

/-- Rust `Metadata` (spec section 3): the persisted root and page manager. -/
structure MetadataM where
  root : Nat
  page_manager : PageManagerM
deriving DecidableEq, Repr

/-- The version-publication state of `TransactionManager`
(`version.rs:14-18`): the latest version and the FIFO of retired
versions, front first. -/
structure TMState where
  latest : VersionM
  versions : List VersionM
deriving DecidableEq, Repr

/-- The fields of `InsertTransactionBuilder` (`version.rs:51-60`) that
`commit` reads: the root after all inserts, the staged shadow pages,
the collected old ids and the page manager held by the writer. -/
structure BuilderM where
  current_root : Nat
  shadowed_pages : List (Nat × NodeM)
  old_ids : List Nat
  page_manager : PageManagerM
deriving DecidableEq, Repr

/-- Rust `InsertTransactionBuilder::commit` (`version.rs:219-244`): write the
staged pages to the paged file, build the `WriteTransaction` delta
`{ new_root = current_root, shadowed_pages = old_ids, next_page_id =
page_manager.next_page }`, push the previous latest version onto the
back of the retired queue and store the new version as latest. -/
def commit (tm : TMState) (disk : PageStore) (b : BuilderM) :
    TMState × PageStore :=
  let disk1 := b.shadowed_pages.foldl (fun d p => p :: d) disk
  let transaction : WriteTransactionM :=
    ⟨b.current_root, b.old_ids, b.page_manager.next_page⟩
  (⟨⟨b.current_root, transaction⟩, tm.versions ++ [tm.latest]⟩, disk1)

/-- A retired-queue entry together with the number of outstanding
reader references: `Arc::strong_count == 1` in
`TransactionManager::collect_pending` means the queue holds the only
reference, i.e. `readers = 0` here. -/
structure VersionEntry where
  version : VersionM
  readers : Nat
deriving DecidableEq, Repr

/-- The pop loop of `collect_pending` (`version.rs:127-137`): pop
versions from the front while the front has no outstanding reference;
returns the popped versions in order and the remaining queue. -/
def popRetirable : List VersionEntry → List VersionM × List VersionEntry
  | [] => ([], [])
  | e :: rest =>
    if e.readers = 0 then
      let (p, r) := popRetirable rest
      (e.version :: p, r)
    else ([], e :: rest)

/-- The shadowed pages of a list of versions, concatenated in order
(the release loop of `collect_pending` accumulates exactly these). -/
def shadowedOf : List VersionM → List Nat
  | [] => []
  | v :: rest => v.transaction.shadowed_pages ++ shadowedOf rest

/-- Rust `TransactionManager::collect_pending` (`version.rs:119-162`): pop
retireable versions from the front of the queue; if none was popped,
return `None`; otherwise release every popped shadowed page into the
page manager and return the checkpoint: the new metadata (root of the
last popped version, page manager with `next_page` overridden by the
`next_page_id` of the last popped version), the mutated in-memory page
manager and the remaining queue. -/
def collect_pending (pm : PageManagerM) (queue : List VersionEntry) :
    Option (MetadataM × PageManagerM × List VersionEntry) :=
  let (popped, rest) := popRetirable queue
  let pagesToRelease := popped.foldl
    (fun acc v => acc ++ v.transaction.shadowed_pages) []
  match popped.getLast? with
  | none => none
  | some last =>
    let pm1 := pagesToRelease.foldl PageManagerM.remove_page pm
    let pmToCommit : PageManagerM := ⟨last.transaction.next_page_id, pm1.free_list⟩
    some (⟨last.transaction.new_root, pmToCommit⟩, pm1, rest)

/-! ## The flat file (`flatfile.rs`) -/

/-- Constant `SZ_BITS` (`flatfile.rs:9`). -/
def SZ_BITS : Nat := 24

/-- Constant `POS_BITS` (`flatfile.rs:10`). -/
def POS_BITS : Nat := 40

/-- Constant `MAX_BLOB_SIZE = 2 << SZ_BITS` (`flatfile.rs:11`).  The value is
`2^25` bytes (32 MiB), although the comment next to it says
"16MB blob". -/
def MAX_BLOB_SIZE : Nat := 2 <<< SZ_BITS

/-- Constant `MAX_POS_OFFSET = 2 << POS_BITS - 1` (`flatfile.rs:12`).  By Rust
operator precedence this parses as `2 << (POS_BITS - 1) = 2^40`,
although the comment next to it says "last possible position 1byte
below 1TB". -/
def MAX_POS_OFFSET : Nat := 2 <<< (POS_BITS - 1)

example : MAX_BLOB_SIZE = 2 ^ 25 := by decide
example : MAX_POS_OFFSET = 2 ^ 40 := by decide

/-- Little-endian `u32` bytes of `n` (`u32::to_le_bytes`). -/
def u32le (n : Nat) : List Nat :=
  [n % 256, n / 2 ^ 8 % 256, n / 2 ^ 16 % 256, n / 2 ^ 24 % 256]

/-- The mmap-backed append-only file (`flatfile.rs:123-126`): the next
append position and the written record bytes (the 4 KiB reserved header
is elided; `next_pos` starts at the initial file length). -/
structure FlatFileM where
  next_pos : Nat
  data : List Nat
deriving DecidableEq, Repr

/-- Rust `MmapedAppendOnlyFile::append` (`flatfile.rs:171-218`): reject a
buffer longer than `MAX_BLOB_SIZE`, reject a length that is not a
multiple of 4, reject when `next_pos` exceeds `MAX_POS_OFFSET`;
otherwise write `[len:u32 LE][bytes]`, advance `next_pos` and return
the old position. -/
def MmapedAppendOnlyFile.append (f : FlatFileM) (buf : List Nat) :
    Except String (FlatFileM × Nat) :=
  if buf.length > MAX_BLOB_SIZE then .error "blob size too big"
  else if buf.length % 4 ≠ 0 then .error "blob size is not a multiple of 4"
  else if f.next_pos > MAX_POS_OFFSET then .error "offset position too big"
  else
    .ok (⟨f.next_pos + (4 + buf.length), f.data ++ u32le buf.length ++ buf⟩,
      f.next_pos)

/-- Rust `Appender::append` (`flatfile.rs:70-91`), the `fs::File`-backed
variant: same size and position checks except that the
multiple-of-4 check is commented out in the source; `pos` is the
current end-of-file position. -/
def Appender.append (pos : Nat) (buf : List Nat) : Except String (Nat × Nat) :=
  if buf.length > MAX_BLOB_SIZE then .error "blob size too big"
  else if pos > MAX_POS_OFFSET then .error "offset position too big"
  else .ok (pos + (4 + buf.length), pos)

/-! ## The public facade (`lib.rs`) -/

/-- The error kinds of `BTreeStoreError` (`lib.rs:32-46`). -/
inductive BTreeStoreError where
  | IOError (msg : String)
  | InvalidDirectory
  | Unknown
  | DuplicatedKey
  | KeyNotFound
  | WrongMagicNumber
deriving DecidableEq, Repr

/-- The published index state: the paged store, the published root and
the allocation counter. -/
structure PublishedIndex where
  store : PageStore
  root : Nat
  nextId : Nat
deriving DecidableEq, Repr

/-- Modelled from the spec: `BTree::insert_many` (`btreeindex/mod.rs`
is not in the sources; spec sections 4.5-4.6 and 7): run the batch
against one insert transaction; on success commit publishes the new
root, on any error the transaction is dropped without publishing, so
the published state is returned unchanged. -/
def BTree.insert_many (cap fuel : Nat) (pub : PublishedIndex)
    (batch : List (Nat × Nat)) : PublishedIndex × Except BTreeStoreError Unit :=
  let tx0 : TreeTx := ⟨pub.store, pub.root, pub.nextId, []⟩
  match treeInsertManyTx cap fuel tx0 batch with
  | .error e =>
    (pub, .error (if e = "duplicated key" then .DuplicatedKey else .Unknown))
  | .ok tx => (⟨tx.store, tx.root, tx.nextId⟩, .ok ())

/-- Modelled from the spec: `BTree::insert_one` (`btreeindex/mod.rs` is
not in the sources; spec section 4.8): a single insertion is a
one-element batch against its own transaction. -/
def BTree.insert_one (cap fuel : Nat) (pub : PublishedIndex) (k v : Nat) :
    PublishedIndex × Except BTreeStoreError Unit :=
  BTree.insert_many cap fuel pub [(k, v)]

/-- The facade state (`BTreeStore`, `lib.rs:48-54`): the index and the
flat file. -/
structure BTreeStoreM where
  index : PublishedIndex
  flat : FlatFileM
deriving DecidableEq, Repr

/-- Rust `BTreeStore::insert` (`lib.rs:121-130`): append the blob to the
flat file first (an append failure is surfaced as an IO error and the
index is untouched), then insert `(key, offset)` in the index and
surface that result; the flat file keeps the appended blob even when
the index insertion fails.  (`flatfile.sync()` and `checkpoint()` do
not change the modelled state.) -/
def BTreeStore.insert (cap fuel : Nat) (s : BTreeStoreM) (k : Nat)
    (blob : List Nat) : BTreeStoreM × Except BTreeStoreError Unit :=
  match MmapedAppendOnlyFile.append s.flat blob with
  | .error e => (s, .error (.IOError e))
  | .ok (flat1, off) =>
    let (idx1, res) := BTree.insert_one cap fuel s.index k off
    (⟨idx1, flat1⟩, res)

/-- The append loop of `BTreeStore::insert_many` (`lib.rs:137-141`):
append every blob in order, collecting `(key, offset)` pairs; the first
failure aborts the loop but the records appended before it remain in
the file. -/
def appendAll (flat : FlatFileM) : List (Nat × List Nat) →
    FlatFileM × Except String (List (Nat × Nat))
  | [] => (flat, .ok [])
  | (k, blob) :: rest =>
    match MmapedAppendOnlyFile.append flat blob with
    | .error e => (flat, .error e)
    | .ok (flat1, off) =>
      match appendAll flat1 rest with
      | (flat2, .error e) => (flat2, .error e)
      | (flat2, .ok offs) => (flat2, .ok ((k, off) :: offs))

/-- Rust `BTreeStore::insert_many` (`lib.rs:133-148`): append all blobs,
then run the whole `(key, offset)` batch through one index
transaction. -/
def BTreeStore.insert_many (cap fuel : Nat) (s : BTreeStoreM)
    (batch : List (Nat × List Nat)) : BTreeStoreM × Except BTreeStoreError Unit :=
  match appendAll s.flat batch with
  | (flat1, .error e) => (⟨s.index, flat1⟩, .error (.IOError e))
  | (flat1, .ok offs) =>
    let (idx1, res) := BTree.insert_many cap fuel s.index offs
    (⟨idx1, flat1⟩, res)

/-! ## The paged store and its borrow checker (`pages.rs`) -/

/-- The `Pages` store parameters visible to `get_page`
(`pages.rs:12-19`): the byte length of the backing mmap storage and the
page size. -/
structure PagesM where
  storage_len : Nat
  page_size : Nat
deriving DecidableEq, Repr

/-- A read handle as returned by `Pages::get_page`: page id and the
byte offset of the region it views. -/
structure ReadHandleM where
  id : Nat
  offset : Nat
deriving DecidableEq, Repr

/-- Rust `Pages::get_page` (`pages.rs:46-65`): compute the byte offset
`(id - 1) * page_size` (`checked_sub(1).unwrap()` panics on id 0,
embedded as `none`) and return a handle over that region.  The source
performs no range check (the `TODO` at `pages.rs:47`) and calls the
unchecked `MmapStorage::get`, so any id `≥ 1` yields `Some(handle)`
regardless of `storage_len`. -/
def Pages.get_page (p : PagesM) (id : Nat) : Option ReadHandleM :=
  match id with
  | 0 => none
  | _ + 1 => some ⟨id, (id - 1) * p.page_size⟩

/-- A page of the paged file exists when its whole byte region lies
inside the backing storage. -/
def PagesM.pageExists (p : PagesM) (id : Nat) : Prop :=
  1 ≤ id ∧ id * p.page_size ≤ p.storage_len

/-- The borrow state of one page (`BorrowGuard`, `pages.rs:175-179`,
with the number of live shared guards): the borrow table keeps an entry
only while at least one guard is alive (the `Weak`/`Arc` mechanism of
the source). -/
inductive BorrowState where
  | Shared (count : Nat)
  | Exclusive
deriving DecidableEq, Repr

/-- The borrow table `PageId → live borrow state` (`BorrowChecker`,
`pages.rs:122-124`); `none` means no live borrow. -/
def BorrowMap : Type := Nat → Option BorrowState

/-- Update the table at one id. -/
def BorrowMap.set (m : BorrowMap) (id : Nat) (st : Option BorrowState) :
    BorrowMap :=
  fun j => if j = id then st else m j

/-- Rust `BorrowChecker::borrow_mut` (`pages.rs:133-143`): taking an
exclusive borrow panics (`none`) when the page has any live borrow,
shared or exclusive; otherwise it installs an exclusive one. -/
def BorrowChecker.borrow_mut (m : BorrowMap) (id : Nat) : Option BorrowMap :=
  match m id with
  | some _ => none
  | none => some (m.set id (some .Exclusive))

/-- Rust `BorrowChecker::borrow` (`pages.rs:145-172`): taking a shared
borrow panics (`none`) when the page is exclusively borrowed; otherwise
it installs a shared borrow or increments the live count. -/
def BorrowChecker.borrow (m : BorrowMap) (id : Nat) : Option BorrowMap :=
  match m id with
  | some .Exclusive => none
  | some (.Shared n) => some (m.set id (some (.Shared (n + 1))))
  | none => some (m.set id (some (.Shared 1)))

/-- Dropping one `BorrowRAIIGuard` for `id`: dropping the last guard
expires the table entry (the `Weak` can no longer be upgraded), a
shared guard among several just decrements the live count. -/
def BorrowChecker.dropGuard (m : BorrowMap) (id : Nat) : BorrowMap :=
  match m id with
  | some (.Shared (n + 2)) => m.set id (some (.Shared (n + 1)))
  | some (.Shared _) => m.set id none
  | some .Exclusive => m.set id none
  | none => m

/-! ## Lemmas about sorted insertion -/

theorem insertSorted_length (k v : Nat) (es : List (Nat × Nat)) :
    (insertSorted k v es).length = es.length + 1 := by
  induction es with
  | nil => rfl
  | cons e rest ih =>
    obtain ⟨k1, v1⟩ := e
    by_cases h : k < k1 <;> simp [insertSorted, h, ih]

theorem insertSorted_perm (k v : Nat) (es : List (Nat × Nat)) :
    (insertSorted k v es).Perm ((k, v) :: es) := by
  induction es with
  | nil => simp [insertSorted]
  | cons e rest ih =>
    obtain ⟨k1, v1⟩ := e
    by_cases h : k < k1
    · simp [insertSorted, h]
    · simp only [insertSorted, if_neg h]
      exact ((ih.cons (k1, v1)).trans (List.Perm.swap (k, v) (k1, v1) rest))

theorem insertSorted_mem (k v : Nat) (es : List (Nat × Nat))
    (e : Nat × Nat) (he : e ∈ insertSorted k v es) :
    e = (k, v) ∨ e ∈ es := by
  have := (insertSorted_perm k v es).mem_iff.mp he
  simpa using this

theorem insertSorted_pairwise (k v : Nat) (es : List (Nat × Nat))
    (hs : es.Pairwise (fun a b => a.1 < b.1)) (hk : ∀ e ∈ es, e.1 ≠ k) :
    (insertSorted k v es).Pairwise (fun a b => a.1 < b.1) := by
  induction es with
  | nil => simp [insertSorted]
  | cons e rest ih =>
    obtain ⟨k1, v1⟩ := e
    rw [List.pairwise_cons] at hs
    obtain ⟨hlt, hrest⟩ := hs
    by_cases h : k < k1
    · rw [insertSorted, if_pos h, List.pairwise_cons]
      refine ⟨?_, List.pairwise_cons.mpr ⟨hlt, hrest⟩⟩
      intro b hb
      rcases List.mem_cons.mp hb with hb | hb
      · simpa [hb] using h
      · exact lt_trans h (hlt b hb)
    · rw [insertSorted, if_neg h, List.pairwise_cons]
      have hk1 : k1 < k := by
        rcases Nat.lt_or_ge k1 k with h1 | h1
        · exact h1
        · exact absurd (Nat.le_antisymm h1 (Nat.le_of_not_lt h))
            (fun heq => hk (k1, v1) (List.mem_cons_self _ _) heq.symm)
      refine ⟨?_, ih hrest (fun e he => hk e (List.mem_cons_of_mem _ he))⟩
      intro b hb
      rcases insertSorted_mem k v rest b hb with hb | hb
      · simpa [hb] using hk1
      · exact hlt b hb

theorem contains_false_not_mem (k : Nat) (l : List Nat)
    (h : l.contains k = false) : ∀ x ∈ l, x ≠ k := by
  intro x hx heq
  subst heq
  have : l.contains x = true := List.elem_eq_true_of_mem hx
  rw [h] at this
  exact Bool.noConfusion this

/-! ## Claim C1: the leaf split partition -/

/-- C1 (counterexample): the claim states both that the left half of a
leaf split keeps `⌈(cap+1)/2⌉` entries and that, at capacity 2,
inserting keys 1, 2, 3 in ascending order leaves the left leaf `{1}`.
These contradict each other: the code (pinned by the unit test
`insert_leaf_with_split_at_middle` in `node/mod.rs:383-436`) leaves 1
entry on the left, but `⌈(2+1)/2⌉ = 2`. -/
theorem c1_leaf_split_counterexample :
    LeafNode.insert 2 ⟨[(1, 1), (2, 2)]⟩ 3 3 =
      .Split 2 ⟨[(1, 1)]⟩ ⟨[(2, 2), (3, 3)]⟩ ∧
    ([(1, 1)] : List (Nat × Nat)).length ≠ (2 + 1 + 1) / 2 := by
  exact ⟨by decide, by decide⟩

/-- C1 (amended): for every full leaf of capacity `cap ≥ 1` with
strictly ascending keys and a key `k` not yet present, `LeafNode.insert`
splits: the `cap + 1` entries are arranged in key order (a permutation
of the old entries plus the new one, strictly sorted, the new entry in
whichever half it belongs), the left leaf keeps `⌊(cap+1)/2⌋` entries —
not `⌈(cap+1)/2⌉` — the right sibling gets the remaining
`⌈(cap+1)/2⌉`, and the returned `mid_key` is the smallest key of the
right sibling; at capacity 2 with keys 1, 2, 3 ascending this leaves
left `{1}`, right `{2, 3}`, `mid_key = 2`. -/
theorem c1_leaf_split_partition (cap : Nat) (leaf : LeafNode) (k v : Nat)
    (hcap : 1 ≤ cap) (hfull : leaf.entries.length = cap)
    (hsorted : leaf.entries.Pairwise (fun a b => a.1 < b.1))
    (hnotin : leaf.keys.contains k = false) :
    ∃ mid left right, LeafNode.insert cap leaf k v = .Split mid left right ∧
      left.entries = (insertSorted k v leaf.entries).take ((cap + 1) / 2) ∧
      right.entries = (insertSorted k v leaf.entries).drop ((cap + 1) / 2) ∧
      left.entries.length = (cap + 1) / 2 ∧
      right.entries.length = (cap + 1) - (cap + 1) / 2 ∧
      (left.entries ++ right.entries).Perm ((k, v) :: leaf.entries) ∧
      (left.entries ++ right.entries).Pairwise (fun a b => a.1 < b.1) ∧
      mid ∈ right.keys ∧ ∀ k2 ∈ right.keys, mid ≤ k2 := by
  have hnmem : ∀ e ∈ leaf.entries, e.1 ≠ k := by
    intro e he
    exact contains_false_not_mem k leaf.keys hnotin e.1
      (List.mem_map_of_mem Prod.fst he)
  have hnlt : ¬ leaf.entries.length < cap := by omega
  have hmergedLen : (insertSorted k v leaf.entries).length = cap + 1 := by
    rw [insertSorted_length, hfull]
  have hm : (cap + 1) / 2 ≤ cap := by omega
  set merged := insertSorted k v leaf.entries with hmerged
  set m := (cap + 1) / 2 with hmdef
  have hsortedMerged : merged.Pairwise (fun a b => a.1 < b.1) :=
    insertSorted_pairwise k v leaf.entries hsorted hnmem
  have htd : merged.take m ++ merged.drop m = merged := List.take_append_drop m merged
  have hdropLen : (merged.drop m).length = (cap + 1) - m := by
    rw [List.length_drop, hmergedLen]
  have hdropNe : merged.drop m ≠ [] := by
    intro hnil
    rw [hnil] at hdropLen
    simp at hdropLen
    omega
  obtain ⟨e0, tail, hdropEq⟩ := List.exists_cons_of_ne_nil hdropNe
  have hdropSorted : (merged.drop m).Pairwise (fun a b => a.1 < b.1) :=
    hsortedMerged.sublist (List.drop_sublist m merged)
  refine ⟨((merged.drop m).map Prod.fst).headD 0, ⟨merged.take m⟩, ⟨merged.drop m⟩,
    ?_, rfl, rfl, ?_, hdropLen, ?_, ?_, ?_, ?_⟩
  · rw [LeafNode.insert, hnotin, if_neg hnlt]
    simp
  · rw [List.length_take, hmergedLen]
    omega
  · rw [htd]
    exact insertSorted_perm k v leaf.entries
  · rw [htd]
    exact hsortedMerged
  · rw [LeafNode.keys, hdropEq]
    simp
  · intro k2 hk2
    rw [LeafNode.keys, hdropEq] at hk2
    rw [hdropEq]
    simp only [List.map_cons, List.headD_cons]
    rw [List.map_cons, List.mem_cons] at hk2
    rcases hk2 with hk2 | hk2
    · omega
    · obtain ⟨e2, he2, he2eq⟩ := List.mem_map.mp hk2
      rw [hdropEq, List.pairwise_cons] at hdropSorted
      have := hdropSorted.1 e2 he2
      omega

/-- C1 (witness): the amended split theorem at capacity 2, full leaf
`{1, 2}`, inserting key 3 — the scenario of the example in the claim. -/
theorem c1_leaf_split_partition_witness :
    ∃ mid left right,
      LeafNode.insert 2 ⟨[(1, 1), (2, 2)]⟩ 3 3 = .Split mid left right ∧
      left.entries = (insertSorted 3 3 [(1, 1), (2, 2)]).take ((2 + 1) / 2) ∧
      right.entries = (insertSorted 3 3 [(1, 1), (2, 2)]).drop ((2 + 1) / 2) ∧
      left.entries.length = (2 + 1) / 2 ∧
      right.entries.length = (2 + 1) - (2 + 1) / 2 ∧
      (left.entries ++ right.entries).Perm ((3, 3) :: [(1, 1), (2, 2)]) ∧
      (left.entries ++ right.entries).Pairwise (fun a b => a.1 < b.1) ∧
      mid ∈ right.keys ∧ ∀ k2 ∈ right.keys, mid ≤ k2 :=
  c1_leaf_split_partition 2 ⟨[(1, 1), (2, 2)]⟩ 3 3 (by decide) (by decide)
    (by decide) (by decide)

/-! ## Claim C2: the descent policy -/

theorem descentChild_eq (node : InternalNode) (k : Nat)
    (hne : node.children ≠ []) :
    descentChild node k =
      node.children.get?
        (min
          (match binary_search node.keys k with
            | .inl pos => pos + 1
            | .inr pos => pos)
          (node.children.length - 1)) := by
  rw [descentChild]
  set pivot :=
    (match binary_search node.keys k with
      | .inl pos => pos + 1
      | .inr pos => pos) with hp
  by_cases h : pivot < node.children.length
  · rw [if_pos h]
    congr 1
    omega
  · rw [if_neg h]
    cases hc : node.children.length with
    | zero => exact absurd (List.length_eq_zero.mp hc) hne
    | succ n =>
      show node.children.get? n = node.children.get? (min pivot (n + 1 - 1))
      have hlen : node.children.length = n + 1 := hc
      have hmin : min pivot (n + 1 - 1) = n := by omega
      rw [hmin]

theorem search_for_head (s : PageStore) (k fuel current : Nat)
    (path : List (Nat × InternalNode)) (leafId : Nat) (leaf : LeafNode)
    (h : search_for s k fuel current = some (path, leafId, leaf)) :
    headIdOf path leafId = current := by
  cases fuel with
  | zero => exact absurd h (by simp [search_for])
  | succ n =>
    rw [search_for] at h
    split at h
    · injection h with h
      rw [Prod.mk.injEq, Prod.mk.injEq] at h
      obtain ⟨h1, h2, _⟩ := h
      subst h1
      subst h2
      rfl
    · split at h
      · split at h
        · injection h with h
          rw [Prod.mk.injEq, Prod.mk.injEq] at h
          obtain ⟨h1, _, _⟩ := h
          subst h1
          rfl
        · exact absurd h (by simp)
      · exact absurd h (by simp)
    · exact absurd h (by simp)

theorem search_for_linked (s : PageStore) (k : Nat) :
    ∀ fuel current path leafId leaf,
      search_for s k fuel current = some (path, leafId, leaf) →
      pathLinked k leafId path := by
  intro fuel
  induction fuel with
  | zero =>
    intro current path leafId leaf h
    exact absurd h (by simp [search_for])
  | succ n ih =>
    intro current path leafId leaf h
    rw [search_for] at h
    split at h
    · injection h with h
      rw [Prod.mk.injEq, Prod.mk.injEq] at h
      obtain ⟨h1, _, _⟩ := h
      subst h1
      trivial
    · rename_i node hlk
      split at h
      · rename_i child hdc
        split at h
        · rename_i p2 l2 lf2 hrec
          injection h with h
          rw [Prod.mk.injEq, Prod.mk.injEq] at h
          obtain ⟨h1, h2, h3⟩ := h
          subst h1
          subst h2
          subst h3
          refine ⟨?_, ih child p2 _ _ hrec⟩
          rw [hdc]
          exact congrArg some (search_for_head s k n child p2 _ _ hrec).symm
        · exact absurd h (by simp)
      · exact absurd h (by simp)
    · exact absurd h (by simp)

/-- C2: during the insertion descent (`InsertBacktrack::search_for`),
at every internal node visited with search key `k` the child followed
is `children[pos + 1]` when `binary_search` returns `Ok(pos)` and
`children[pos]` when it returns `Err(pos)`, the index clamped to the
last child when out of range; and along any recorded descent path each
visited internal node selects exactly the next node on the path. -/
theorem c2_descent_policy :
    (∀ (node : InternalNode) (k : Nat), node.children ≠ [] →
      descentChild node k =
        node.children.get?
          (min
            (match binary_search node.keys k with
              | .inl pos => pos + 1
              | .inr pos => pos)
            (node.children.length - 1))) ∧
    (∀ (s : PageStore) (k fuel current : Nat)
      (path : List (Nat × InternalNode)) (leafId : Nat) (leaf : LeafNode),
      search_for s k fuel current = some (path, leafId, leaf) →
      pathLinked k leafId path) :=
  ⟨descentChild_eq,
   fun s k fuel current path leafId leaf h =>
     search_for_linked s k fuel current path leafId leaf h⟩

/-- C2 (witness): the policy at a concrete internal node (`Ok(0)` on
key 5 selects `children[1]`, clamped view) and a concrete two-level
descent for key 5 whose recorded path is linked. -/
theorem c2_descent_policy_witness :
    descentChild ⟨[5], [10, 20]⟩ 7 =
      ([10, 20] : List Nat).get?
        (min
          (match binary_search [5] 7 with
            | .inl pos => pos + 1
            | .inr pos => pos)
          (([10, 20] : List Nat).length - 1)) ∧
    pathLinked 5 3 [(1, ⟨[5], [2, 3]⟩)] :=
  ⟨c2_descent_policy.1 ⟨[5], [10, 20]⟩ 7 (by decide),
   c2_descent_policy.2
     [(1, .internal ⟨[5], [2, 3]⟩), (2, .leaf ⟨[(1, 1)]⟩),
      (3, .leaf ⟨[(5, 5)]⟩)]
     5 3 1 [(1, ⟨[5], [2, 3]⟩)] 3 ⟨[(5, 5)]⟩ (by decide)⟩

/-! ## Claim C3: commit publication -/

/-- C3: for every transaction manager state, disk state and transaction
builder, `InsertTransactionBuilder::commit` publishes a new `Version`
whose root is the `current_root` of the builder, whose transaction delta
carries `new_root = current_root`, `shadowed_pages = old_ids` (the
collected old page ids) and `next_page_id = page_manager.next_page`;
the retired queue afterwards is the previous queue with the previous
latest version appended at the back, so every previously published
version — the old latest included — is carried over unchanged and a
reader holding the old latest keeps observing the same value. -/
theorem c3_commit_publishes (tm : TMState) (disk : PageStore) (b : BuilderM) :
    (commit tm disk b).1.latest.root = b.current_root ∧
    (commit tm disk b).1.latest.transaction =
      ⟨b.current_root, b.old_ids, b.page_manager.next_page⟩ ∧
    (commit tm disk b).1.versions = tm.versions ++ [tm.latest] ∧
    (commit tm disk b).1.versions.getLast? = some tm.latest := by
  refine ⟨rfl, rfl, rfl, ?_⟩
  show (tm.versions ++ [tm.latest]).getLast? = some tm.latest
  simp

/-- C3 (witness): the commit characterization evaluated at a concrete
state (the theorem has no hypotheses; this instantiation checks the
definitions compute). -/
theorem c3_commit_publishes_witness :
    (commit ⟨⟨1, ⟨1, [], 2⟩⟩, []⟩ [] ⟨6, [(4, .leaf ⟨[]⟩)], [3], ⟨7, []⟩⟩).1 =
      ⟨⟨6, ⟨6, [3], 7⟩⟩, [⟨1, ⟨1, [], 2⟩⟩]⟩ := by
  decide

/-! ## Claim C4: the checkpoint -/

theorem popRetirable_eq (queue : List VersionEntry) :
    popRetirable queue =
      ((queue.takeWhile fun e => e.readers == 0).map VersionEntry.version,
       queue.dropWhile fun e => e.readers == 0) := by
  induction queue with
  | nil => rfl
  | cons e rest ih =>
    by_cases h : e.readers = 0
    · have hb : (e.readers == 0) = true := by simp [h]
      rw [popRetirable, if_pos h, ih]
      simp [List.takeWhile_cons, List.dropWhile_cons, hb]
    · have hb : (e.readers == 0) = false := by simp [h]
      rw [popRetirable, if_neg h]
      simp [List.takeWhile_cons, List.dropWhile_cons, hb]

theorem foldl_shadowed (vs : List VersionM) :
    ∀ acc : List Nat,
      vs.foldl (fun acc v => acc ++ v.transaction.shadowed_pages) acc =
        acc ++ shadowedOf vs := by
  induction vs with
  | nil => intro acc; simp [shadowedOf]
  | cons v rest ih =>
    intro acc
    rw [List.foldl_cons, ih, shadowedOf, List.append_assoc]

theorem foldl_remove_page (ids : List Nat) :
    ∀ pm : PageManagerM,
      ids.foldl PageManagerM.remove_page pm =
        ⟨pm.next_page, pm.free_list ++ ids⟩ := by
  induction ids with
  | nil => intro pm; simp
  | cons id rest ih =>
    intro pm
    rw [List.foldl_cons, ih, PageManagerM.remove_page, List.append_assoc]
    rfl

/-- C4: `TransactionManager::collect_pending` pops versions from the
front of the retired queue exactly while the front entry has no
outstanding reference (`Arc::strong_count == 1`); when nothing is
retireable it returns `None` and no new state; otherwise it returns the
remaining queue, a page manager whose free list is the old free list
extended by every shadowed page of every popped version, and a
`Metadata` whose root is the `new_root` of the last popped version and
whose page manager has `next_page` equal to the `next_page_id` of the
last popped version. -/
theorem c4_collect_pending_spec (pm : PageManagerM) (queue : List VersionEntry) :
    ((queue.takeWhile fun e => e.readers == 0) = [] →
      collect_pending pm queue = none) ∧
    (∀ last,
      ((queue.takeWhile fun e => e.readers == 0).map VersionEntry.version).getLast?
          = some last →
      collect_pending pm queue =
        some
          (⟨last.transaction.new_root,
            ⟨last.transaction.next_page_id,
             pm.free_list ++
               shadowedOf
                 ((queue.takeWhile fun e => e.readers == 0).map
                   VersionEntry.version)⟩⟩,
           ⟨pm.next_page,
            pm.free_list ++
              shadowedOf
                ((queue.takeWhile fun e => e.readers == 0).map
                  VersionEntry.version)⟩,
           queue.dropWhile fun e => e.readers == 0)) := by
  constructor
  · intro hempty
    rw [collect_pending, popRetirable_eq, hempty]
    rfl
  · intro last hlast
    rw [collect_pending, popRetirable_eq]
    simp only [foldl_shadowed, List.nil_append]
    rw [hlast]
    rw [foldl_remove_page]

/-- C4 (witness): a queue whose first two versions are retireable and
whose third has an outstanding reader: both are popped, their shadowed
pages go to the free list, the metadata carries the root and next page
id of the second version, and the version held by the reader stays
queued. -/
theorem c4_collect_pending_spec_witness :
    collect_pending ⟨9, [7]⟩
        [⟨⟨2, ⟨2, [5, 6], 3⟩⟩, 0⟩, ⟨⟨4, ⟨4, [8], 9⟩⟩, 0⟩, ⟨⟨10, ⟨10, [11], 12⟩⟩, 1⟩] =
      some
        (⟨4, ⟨9, [7, 5, 6, 8]⟩⟩, ⟨9, [7, 5, 6, 8]⟩,
         [⟨⟨10, ⟨10, [11], 12⟩⟩, 1⟩]) := by
  have h :=
    (c4_collect_pending_spec ⟨9, [7]⟩
        [⟨⟨2, ⟨2, [5, 6], 3⟩⟩, 0⟩, ⟨⟨4, ⟨4, [8], 9⟩⟩, 0⟩,
         ⟨⟨10, ⟨10, [11], 12⟩⟩, 1⟩]).2
      ⟨4, ⟨4, [8], 9⟩⟩ (by decide)
  simpa using h

/-! ## Claim C5: duplicated keys -/

theorem lookup_some_contains (k v : Nat) (es : List (Nat × Nat))
    (h : es.lookup k = some v) : (es.map Prod.fst).contains k = true := by
  induction es with
  | nil => exact absurd h (by simp [List.lookup])
  | cons e rest ih =>
    obtain ⟨k1, v1⟩ := e
    rw [List.lookup] at h
    by_cases hk : k = k1
    · simp [hk]
    · have hb : (k == k1) = false := by simp [hk]
      rw [hb] at h
      simp only [List.map_cons, List.contains_cons, Bool.or_eq_true]
      exact Or.inr (ih h)

theorem LeafNode_insert_duplicate (cap : Nat) (leaf : LeafNode) (k v : Nat)
    (hc : leaf.keys.contains k = true) :
    LeafNode.insert cap leaf k v = .DuplicatedKey := by
  rw [LeafNode.insert, hc]
  simp

theorem treeInsertTx_duplicate (cap fuel : Nat) (tx : TreeTx) (k v v2 : Nat)
    (h : treeLookup tx.store fuel tx.root k = some v) :
    treeInsertTx cap fuel tx k v2 = .error "duplicated key" := by
  rw [treeLookup] at h
  cases hs : search_for tx.store k fuel tx.root with
  | none =>
    rw [hs] at h
    exact absurd h (by simp)
  | some res =>
    obtain ⟨path, leafId, leaf⟩ := res
    rw [hs] at h
    have hh : leaf.entries.lookup k = some v := h
    have hc : leaf.keys.contains k = true :=
      lookup_some_contains k v leaf.entries hh
    rw [treeInsertTx]
    simp only [hs]
    rw [LeafNode_insert_duplicate cap leaf k v2 hc]

/-- C5 (counterexample): with key 5 already present, `BTreeStore::insert`
of key 5 returns `DuplicatedKey` but does not leave the store bytewise
unchanged: the value blob was appended to the flat file before the
duplicate was detected (`lib.rs:121-130` appends first and never rolls
back). -/
theorem c5_duplicate_counterexample :
    (BTreeStore.insert 2 2 ⟨⟨[(1, .leaf ⟨[(5, 50)]⟩)], 1, 2⟩, ⟨0, []⟩⟩ 5
        [7, 7, 7, 7]).2 = .error .DuplicatedKey ∧
    (BTreeStore.insert 2 2 ⟨⟨[(1, .leaf ⟨[(5, 50)]⟩)], 1, 2⟩, ⟨0, []⟩⟩ 5
        [7, 7, 7, 7]).1.flat ≠ (⟨0, []⟩ : FlatFileM) := by
  exact ⟨by rfl, by decide⟩

/-- C5 (amended): for every key `k` reachable by lookup, a second insert
of `k` returns `DuplicatedKey` and publishes nothing to the index; any
error inside an `insert_many` batch aborts the whole transaction, so
no insertion of the batch (including those performed before the
duplicate) is published; at the store level the result is
`DuplicatedKey` with the index unchanged, but the store is not bytewise
unchanged: the value blob remains appended to the flat file. -/
theorem c5_duplicate_insert :
    (∀ (cap fuel : Nat) (pub : PublishedIndex) (k v v2 : Nat),
      treeLookup pub.store fuel pub.root k = some v →
      BTree.insert_one cap fuel pub k v2 = (pub, .error .DuplicatedKey)) ∧
    (∀ (cap fuel : Nat) (pub : PublishedIndex) (batch : List (Nat × Nat))
      (e : String),
      treeInsertManyTx cap fuel ⟨pub.store, pub.root, pub.nextId, []⟩ batch =
          .error e →
      BTree.insert_many cap fuel pub batch =
        (pub, .error (if e = "duplicated key" then .DuplicatedKey else .Unknown))) ∧
    (∀ (cap fuel : Nat) (s : BTreeStoreM) (k : Nat) (blob : List Nat) (v : Nat),
      treeLookup s.index.store fuel s.index.root k = some v →
      blob.length % 4 = 0 → blob.length ≤ MAX_BLOB_SIZE →
      s.flat.next_pos ≤ MAX_POS_OFFSET →
      (BTreeStore.insert cap fuel s k blob).2 = .error .DuplicatedKey ∧
      (BTreeStore.insert cap fuel s k blob).1.index = s.index ∧
      (BTreeStore.insert cap fuel s k blob).1.flat.data =
        s.flat.data ++ u32le blob.length ++ blob) := by
  have hone : ∀ (cap fuel : Nat) (pub : PublishedIndex) (k v v2 : Nat),
      treeLookup pub.store fuel pub.root k = some v →
      BTree.insert_one cap fuel pub k v2 = (pub, .error .DuplicatedKey) := by
    intro cap fuel pub k v v2 h
    have hdup : treeInsertTx cap fuel ⟨pub.store, pub.root, pub.nextId, []⟩ k v2 =
        .error "duplicated key" :=
      treeInsertTx_duplicate cap fuel ⟨pub.store, pub.root, pub.nextId, []⟩ k v v2 h
    rw [BTree.insert_one, BTree.insert_many, treeInsertManyTx]
    simp only [hdup]
    rfl
  refine ⟨hone, ?_, ?_⟩
  · intro cap fuel pub batch e h
    rw [BTree.insert_many]
    simp only [h]
  · intro cap fuel s k blob v h h4 hlen hpos
    have happ : MmapedAppendOnlyFile.append s.flat blob =
        .ok (⟨s.flat.next_pos + (4 + blob.length),
              s.flat.data ++ u32le blob.length ++ blob⟩, s.flat.next_pos) := by
      rw [MmapedAppendOnlyFile.append, if_neg (by omega), if_neg (by omega),
        if_neg (by omega)]
    have hres := hone cap fuel s.index k v s.flat.next_pos h
    rw [BTreeStore.insert]
    simp only [happ, hres]
    refine ⟨?_, ?_, ?_⟩ <;> trivial

/-- C5 (witness): the amended theorem at a concrete store holding key 5
at value 50: (a) a direct second insert of key 5, (b) the batch
`[(2, 2), (5, 51)]`, whose first insertion succeeds in the transaction
before the duplicate aborts it wholesale, (c) the facade-level insert,
whose flat file retains the appended blob. -/
theorem c5_duplicate_insert_witness :
    BTree.insert_one 2 2 ⟨[(1, .leaf ⟨[(5, 50)]⟩)], 1, 2⟩ 5 51 =
      (⟨[(1, .leaf ⟨[(5, 50)]⟩)], 1, 2⟩, .error .DuplicatedKey) ∧
    BTree.insert_many 2 3 ⟨[(1, .leaf ⟨[(5, 50)]⟩)], 1, 2⟩ [(2, 2), (5, 51)] =
      (⟨[(1, .leaf ⟨[(5, 50)]⟩)], 1, 2⟩, .error .DuplicatedKey) ∧
    (BTreeStore.insert 2 2 ⟨⟨[(1, .leaf ⟨[(5, 50)]⟩)], 1, 2⟩, ⟨0, []⟩⟩ 5
        [7, 7, 7, 7]).1.index = ⟨[(1, .leaf ⟨[(5, 50)]⟩)], 1, 2⟩ := by
  refine ⟨?_, ?_, ?_⟩
  · exact c5_duplicate_insert.1 2 2 ⟨[(1, .leaf ⟨[(5, 50)]⟩)], 1, 2⟩ 5 50 51
      (by decide)
  · have h := c5_duplicate_insert.2.1 2 3 ⟨[(1, .leaf ⟨[(5, 50)]⟩)], 1, 2⟩
      [(2, 2), (5, 51)] "duplicated key" (by rfl)
    simpa using h
  · exact (c5_duplicate_insert.2.2 2 2
      ⟨⟨[(1, .leaf ⟨[(5, 50)]⟩)], 1, 2⟩, ⟨0, []⟩⟩ 5 [7, 7, 7, 7] 50
      (by decide) (by decide) (by decide) (by decide)).2.1

/-! ## Claim C6: `get_page` on unknown ids -/

/-- C6: the claim says `Pages::get_page` panics or returns `None` on an
unknown id and never hands out a read handle for a page that does not
exist.  The source performs no range check (the `TODO` at `pages.rs:47`
records the missing check) and calls the unchecked `MmapStorage::get`:
with a one-page storage (`page_size = 4096`, 4096 bytes mapped),
`get_page 2` returns a handle over bytes `4096..8192` although page 2
does not exist. -/
theorem c6_get_page_unchecked :
    Pages.get_page ⟨4096, 4096⟩ 2 = some ⟨2, 4096⟩ ∧
    ¬ PagesM.pageExists ⟨4096, 4096⟩ 2 := by
  refine ⟨by decide, ?_⟩
  intro h
  exact absurd h.2 (by decide)

/-! ## Claim C7: the maximum blob size -/

/-- C7: the claim (with the spec and the source comment "16MB blob")
bounds appended blobs by 16 MiB = `2^24` bytes, but
`MAX_BLOB_SIZE = 2 << 24 = 2^25`: a blob of `2^24 + 4` bytes — larger
than 16 MiB — is appended successfully by both
`MmapedAppendOnlyFile::append` and `Appender::append`. -/
theorem c7_append_accepts_oversize_blob :
    2 ^ 24 < 2 ^ 24 + 4 ∧
    MmapedAppendOnlyFile.append ⟨0, []⟩ (List.replicate (2 ^ 24 + 4) 0) =
      .ok (⟨0 + (4 + (2 ^ 24 + 4)),
            [] ++ u32le (2 ^ 24 + 4) ++ List.replicate (2 ^ 24 + 4) 0⟩, 0) ∧
    Appender.append 4096 (List.replicate (2 ^ 24 + 4) 0) =
      .ok (4096 + (4 + (2 ^ 24 + 4)), 4096) := by
  have hlen : (List.replicate (2 ^ 24 + 4) (0 : Nat)).length = 2 ^ 24 + 4 :=
    List.length_replicate _ _
  refine ⟨by norm_num, ?_, ?_⟩
  · rw [MmapedAppendOnlyFile.append, hlen, if_neg (by decide), if_neg (by decide),
      if_neg (by decide)]
  · rw [Appender.append, hlen, if_neg (by decide), if_neg (by decide)]

/-! ## Claim C8: the maximum file offset -/

/-- C8: the claim (with the spec and the source comment "last possible
position 1byte below 1TB") bounds positions by `2^40 - 1`, but by Rust
operator precedence `MAX_POS_OFFSET = 2 << 40 - 1 = 2^40`: an append at
position `2^40`, which exceeds `2^40 - 1`, succeeds and returns
`Pos(2^40)`. -/
theorem c8_append_beyond_claimed_max_offset :
    2 ^ 40 - 1 < 2 ^ 40 ∧
    MmapedAppendOnlyFile.append ⟨2 ^ 40, []⟩ [0, 0, 0, 0] =
      .ok (⟨2 ^ 40 + (4 + 4), [] ++ u32le 4 ++ [0, 0, 0, 0]⟩, 2 ^ 40) := by
  refine ⟨by norm_num, ?_⟩
  rw [MmapedAppendOnlyFile.append, if_neg (by decide), if_neg (by decide),
    if_neg (by decide)]
  rfl

/-! ## Claim C9: the borrow checker -/

/-- C9: `BorrowChecker::borrow_mut` panics whenever the page has any
live borrow, shared or exclusive, and otherwise installs an exclusive
borrow; `BorrowChecker::borrow` panics only when the page is currently
exclusively borrowed, and otherwise installs a shared borrow or
increments its live count; dropping a guard ends its borrow, after
which the page can be borrowed again. -/
theorem c9_borrow_discipline :
    (∀ (m : BorrowMap) (id : Nat) (st : BorrowState), m id = some st →
      BorrowChecker.borrow_mut m id = none) ∧
    (∀ (m : BorrowMap) (id : Nat), m id = none →
      BorrowChecker.borrow_mut m id = some (m.set id (some .Exclusive))) ∧
    (∀ (m : BorrowMap) (id : Nat), m id = some .Exclusive →
      BorrowChecker.borrow m id = none) ∧
    (∀ (m : BorrowMap) (id n : Nat), m id = some (.Shared n) →
      BorrowChecker.borrow m id = some (m.set id (some (.Shared (n + 1))))) ∧
    (∀ (m : BorrowMap) (id : Nat), m id = none →
      BorrowChecker.borrow m id = some (m.set id (some (.Shared 1)))) ∧
    (∀ (m : BorrowMap) (id : Nat), m id = some .Exclusive →
      BorrowChecker.dropGuard m id id = none ∧
      BorrowChecker.borrow_mut (BorrowChecker.dropGuard m id) id =
        some ((BorrowChecker.dropGuard m id).set id (some .Exclusive))) ∧
    (∀ (m : BorrowMap) (id : Nat), m id = some (.Shared 1) →
      BorrowChecker.dropGuard m id id = none) ∧
    (∀ (m : BorrowMap) (id n : Nat), m id = some (.Shared (n + 2)) →
      BorrowChecker.dropGuard m id id = some (.Shared (n + 1))) := by
  refine ⟨?_, ?_, ?_, ?_, ?_, ?_, ?_, ?_⟩
  · intro m id st h
    rw [BorrowChecker.borrow_mut]
    simp only [h]
  · intro m id h
    rw [BorrowChecker.borrow_mut]
    simp only [h]
  · intro m id h
    rw [BorrowChecker.borrow]
    simp only [h]
  · intro m id n h
    rw [BorrowChecker.borrow]
    simp only [h]
  · intro m id h
    rw [BorrowChecker.borrow]
    simp only [h]
  · intro m id h
    have hdrop : BorrowChecker.dropGuard m id id = none := by
      rw [BorrowChecker.dropGuard]
      simp only [h]
      simp [BorrowMap.set]
    refine ⟨hdrop, ?_⟩
    rw [BorrowChecker.borrow_mut]
    simp only [hdrop]
  · intro m id h
    rw [BorrowChecker.dropGuard]
    simp only [h]
    simp [BorrowMap.set]
  · intro m id n h
    rw [BorrowChecker.dropGuard]
    simp only [h]
    simp [BorrowMap.set]

/-- C9 (witness): the borrow discipline at page id 1 over concrete
borrow tables (empty, shared once, exclusively borrowed). -/
theorem c9_borrow_discipline_witness :
    BorrowChecker.borrow_mut (fun j => if j = 1 then some .Exclusive else none) 1
        = none ∧
    BorrowChecker.borrow_mut (fun _ => none) 1 =
      some (BorrowMap.set (fun _ => none) 1 (some .Exclusive)) ∧
    BorrowChecker.borrow (fun j => if j = 1 then some .Exclusive else none) 1
        = none ∧
    BorrowChecker.borrow (fun j => if j = 1 then some (.Shared 1) else none) 1 =
      some (BorrowMap.set (fun j => if j = 1 then some (.Shared 1) else none) 1
        (some (.Shared 2))) ∧
    BorrowChecker.dropGuard (fun j => if j = 1 then some .Exclusive else none) 1 1
        = none :=
  ⟨c9_borrow_discipline.1 _ 1 .Exclusive (by simp),
   c9_borrow_discipline.2.1 _ 1 rfl,
   c9_borrow_discipline.2.2.1 _ 1 (by simp),
   c9_borrow_discipline.2.2.2.1 _ 1 1 (by simp),
   (c9_borrow_discipline.2.2.2.2.2.1 _ 1 (by simp)).1⟩

/-! ## Claim C10: blob lengths must be multiples of 4 -/

/-- Whether an `Except` value is an error. -/
def isError {ε α : Type} : Except ε α → Bool
  | .error _ => true
  | .ok _ => false

/-- Whether an `Except` value is the `IOError` kind. -/
def isIOError {α : Type} : Except BTreeStoreError α → Bool
  | .error (.IOError _) => true
  | _ => false

theorem append_not_mult4_err (f : FlatFileM) (buf : List Nat)
    (h : buf.length % 4 ≠ 0) :
    isError (MmapedAppendOnlyFile.append f buf) = true := by
  rw [MmapedAppendOnlyFile.append]
  by_cases hb : buf.length > MAX_BLOB_SIZE
  · rw [if_pos hb]
    rfl
  · rw [if_neg hb, if_pos h]
    rfl

theorem appendAll_err (batch : List (Nat × List Nat)) :
    ∀ (flat : FlatFileM) (k : Nat) (blob : List Nat),
      (k, blob) ∈ batch → blob.length % 4 ≠ 0 →
      isError (appendAll flat batch).2 = true := by
  induction batch with
  | nil =>
    intro flat k blob h
    exact absurd h (List.not_mem_nil _)
  | cons e rest ih =>
    intro flat k blob hmem h4
    obtain ⟨k1, b1⟩ := e
    rw [appendAll]
    cases happ : MmapedAppendOnlyFile.append flat b1 with
    | error e1 => rfl
    | ok res =>
      obtain ⟨flat1, off⟩ := res
      rcases List.mem_cons.mp hmem with heq | hmem2
      · rw [Prod.mk.injEq] at heq
        have hb : b1.length % 4 ≠ 0 := heq.2 ▸ h4
        have := append_not_mult4_err flat b1 hb
        rw [happ] at this
        exact absurd this (by simp [isError])
      · have hrest := ih flat1 k blob hmem2 h4
        cases har : appendAll flat1 rest with
        | mk flat2 r =>
          rw [har] at hrest
          cases r with
          | error e2 =>
            simp only [har]
            rfl
          | ok offs => exact absurd hrest (by simp [isError])

/-- C10: `MmapedAppendOnlyFile::append` returns an error for every blob
whose length is not a multiple of 4, and consequently
`BTreeStore::insert` and `BTreeStore::insert_many` fail with an IO
error for any value blob with `length % 4 ≠ 0` (`insert` additionally
leaves the whole store unchanged, the failed append writing nothing). -/
theorem c10_blob_length_multiple_of_4 :
    (∀ (f : FlatFileM) (buf : List Nat), buf.length % 4 ≠ 0 →
      isError (MmapedAppendOnlyFile.append f buf) = true) ∧
    (∀ (cap fuel : Nat) (s : BTreeStoreM) (k : Nat) (blob : List Nat),
      blob.length % 4 ≠ 0 →
      isIOError (BTreeStore.insert cap fuel s k blob).2 = true ∧
      (BTreeStore.insert cap fuel s k blob).1 = s) ∧
    (∀ (cap fuel : Nat) (s : BTreeStoreM) (batch : List (Nat × List Nat))
      (k : Nat) (blob : List Nat), (k, blob) ∈ batch → blob.length % 4 ≠ 0 →
      isIOError (BTreeStore.insert_many cap fuel s batch).2 = true) := by
  refine ⟨append_not_mult4_err, ?_, ?_⟩
  · intro cap fuel s k blob h4
    rw [BTreeStore.insert]
    cases happ : MmapedAppendOnlyFile.append s.flat blob with
    | error e => exact ⟨rfl, rfl⟩
    | ok res =>
      have := append_not_mult4_err s.flat blob h4
      rw [happ] at this
      exact absurd this (by simp [isError])
  · intro cap fuel s batch k blob hmem h4
    rw [BTreeStore.insert_many]
    have hrest := appendAll_err batch s.flat k blob hmem h4
    cases har : appendAll s.flat batch with
    | mk flat1 r =>
      rw [har] at hrest
      cases r with
      | error e => rfl
      | ok offs => exact absurd hrest (by simp [isError])

/-- C10 (witness): a 1-byte blob is rejected by the append, by
`BTreeStore::insert` and by `BTreeStore::insert_many`, each failing
with an IO error. -/
theorem c10_blob_length_multiple_of_4_witness :
    isError (MmapedAppendOnlyFile.append ⟨0, []⟩ [7]) = true ∧
    isIOError
      (BTreeStore.insert 2 2 ⟨⟨[(1, .leaf ⟨[]⟩)], 1, 2⟩, ⟨0, []⟩⟩ 9 [7]).2
        = true ∧
    isIOError
      (BTreeStore.insert_many 2 2 ⟨⟨[(1, .leaf ⟨[]⟩)], 1, 2⟩, ⟨0, []⟩⟩
        [(9, [7])]).2 = true :=
  ⟨c10_blob_length_multiple_of_4.1 ⟨0, []⟩ [7] (by decide),
   (c10_blob_length_multiple_of_4.2.1 2 2 ⟨⟨[(1, .leaf ⟨[]⟩)], 1, 2⟩, ⟨0, []⟩⟩ 9
     [7] (by decide)).1,
   c10_blob_length_multiple_of_4.2.2 2 2 ⟨⟨[(1, .leaf ⟨[]⟩)], 1, 2⟩, ⟨0, []⟩⟩
     [(9, [7])] 9 [7] (by simp) (by decide)⟩

end ChainLibsBtree
